import Mathlib

/-!
Verification of the collocation integrator core of this repository
(casadi/solvers/collocation.cpp).  The development shallowly embeds the
coefficient derivation of Collocation.setupFG, the forward and backward
step-relation assembly, the option validation, the serialization record,
and the state-buffer initialisation, and proves the specified properties
about them.  Scalars are taken from an arbitrary field so that the
statements cover exact real arithmetic; witnesses instantiate with rationals.
-/

namespace Casadi

variable {K : Type} [Field K]

/-! Polynomial coefficient lists, lowest degree first.  Modelled from the
spec: the Polynomial component (evaluate-at-scalar, multiply, derivative,
antiderivative over an ordered coefficient list) lives in
casadi/core/polynomial.hpp, which is not among the sources under src. -/

/-- Evaluation of a coefficient list at a scalar, by the Horner scheme. -/
def peval (p : List K) (x : K) : K :=
  p.foldr (fun c acc => c + x * acc) 0

/-- Coefficient-wise addition, keeping the longer tail. -/
def padd : List K → List K → List K
  | [], q => q
  | p, [] => p
  | a :: p, b :: q => (a + b) :: padd p q

/-- Multiplication of a polynomial by a scalar. -/
def pscale (c : K) (p : List K) : List K := p.map (fun a => c * a)

/-- Polynomial multiplication (convolution of coefficient lists). -/
def pmul : List K → List K → List K
  | [], _ => []
  | a :: p, q => padd (pscale a q) ((0 : K) :: pmul p q)

/-- Division of a polynomial by a scalar, as in the source expression
Polynomial(-tau_root[r], 1)/(tau_root[j]-tau_root[r]). -/
def pdivC (p : List K) (c : K) : List K := p.map (fun a => a / c)

/-- Coefficient list of the derivative. -/
def pderiv : List K → List K
  | [] => []
  | _ :: p => padd p ((0 : K) :: pderiv p)

/-- Helper for the antiderivative: divides coefficient number n of the
input (counted from an offset) by n+1. -/
def pantiderAux (m : ℕ) : List K → List K
  | [] => []
  | c :: p => (c / ((m : K) + 1)) :: pantiderAux (m + 1) p

/-- Antiderivative with integration constant chosen so that the value at 0
is 0 (the constant coefficient is 0). -/
def pantider (p : List K) : List K := (0 : K) :: pantiderAux 0 p

/-! Bridge from coefficient lists to Mathlib polynomials, used only in
proofs. -/

/-- Interpretation of a coefficient list as a polynomial. -/
noncomputable def toP : List K → Polynomial K
  | [] => 0
  | a :: p => Polynomial.C a + Polynomial.X * toP p

@[simp] theorem toP_nil : toP ([] : List K) = 0 := rfl

@[simp] theorem toP_cons (a : K) (p : List K) :
    toP (a :: p) = Polynomial.C a + Polynomial.X * toP p := rfl

theorem eval_toP (p : List K) (x : K) : (toP p).eval x = peval p x := by
  induction p with
  | nil => simp [peval]
  | cons a p ih =>
    show (Polynomial.C a + Polynomial.X * toP p).eval x = a + x * peval p x
    rw [Polynomial.eval_add, Polynomial.eval_mul, Polynomial.eval_C,
      Polynomial.eval_X, ih]

theorem toP_padd (p q : List K) : toP (padd p q) = toP p + toP q := by
  induction p generalizing q with
  | nil => simp [padd]
  | cons a p ih =>
    cases q with
    | nil => simp [padd]
    | cons b q => simp [padd, ih]; ring

theorem toP_pscale (c : K) (p : List K) :
    toP (pscale c p) = Polynomial.C c * toP p := by
  induction p with
  | nil => simp [pscale]
  | cons a p ih => simp [pscale] at ih ⊢; rw [ih]; ring

theorem toP_pmul (p q : List K) : toP (pmul p q) = toP p * toP q := by
  induction p with
  | nil => simp [pmul]
  | cons a p ih => simp [pmul, toP_padd, toP_pscale, ih]; ring

theorem toP_coeff (p : List K) (n : ℕ) : (toP p).coeff n = p.getD n 0 := by
  induction p generalizing n with
  | nil => simp
  | cons a p ih =>
    cases n with
    | zero => simp [Polynomial.mul_coeff_zero]
    | succ n => simp [Polynomial.coeff_X_mul, ih]

/-! The Lagrange basis construction of Collocation.setupFG (collocation.cpp
lines 113 to 141).  The node grid tau is a parameter: the spec-modelled
collocation_points routine (integration_tools, not under src) supplies the
d interior nodes, and setupFG prepends the node 0. -/

/-- The degree-d Lagrange basis polynomial at node j, built exactly as the
loop in setupFG: a product over all other nodes r of the linear factor
(x - tau r)/(tau j - tau r), starting from the constant polynomial 1. -/
def lagrangePoly (d : ℕ) (tau : Fin (d + 1) → K) (j : Fin (d + 1)) : List K :=
  (List.finRange (d + 1)).foldl
    (fun p r => if r = j then p else pmul p (pdivC [-(tau r), 1] (tau j - tau r)))
    [1]

theorem toP_linear_factor (y c : K) :
    toP (pdivC [-y, 1] c) = Lagrange.basisDivisor (c + y) y := by
  simp [pdivC, Lagrange.basisDivisor, div_eq_mul_inv]
  ring

theorem toP_lagrangePoly (d : ℕ) (tau : Fin (d + 1) → K) (j : Fin (d + 1)) :
    toP (lagrangePoly d tau j) = Lagrange.basis Finset.univ tau j := by
  have key : ∀ (l : List (Fin (d + 1))) (acc : List K),
      toP (l.foldl
        (fun p r => if r = j then p else pmul p (pdivC [-(tau r), 1] (tau j - tau r)))
        acc) =
      toP acc * (l.map (fun r => if r = j then 1 else
        Lagrange.basisDivisor (tau j) (tau r))).prod := by
    intro l
    induction l with
    | nil => intro acc; simp
    | cons r l ih =>
      intro acc
      by_cases hr : r = j
      · simp [hr, ih]
      · have hf : toP (pdivC [-(tau r), 1] (tau j - tau r)) =
            Lagrange.basisDivisor (tau j) (tau r) := by
          have := toP_linear_factor (tau r) (tau j - tau r)
          rwa [sub_add_cancel] at this
        simp [hr, ih, toP_pmul, hf]
        ring
  rw [lagrangePoly, key]
  have hprod : ((List.finRange (d + 1)).map (fun r => if r = j then 1 else
      Lagrange.basisDivisor (tau j) (tau r))).prod =
      ∏ r : Fin (d + 1), (if r = j then 1 else
        Lagrange.basisDivisor (tau j) (tau r)) :=
    (Fin.prod_univ_def _).symm
  rw [hprod, Lagrange.basis]
  have herase : ∏ r : Fin (d + 1), (if r = j then 1 else
      Lagrange.basisDivisor (tau j) (tau r)) =
      ∏ r in Finset.univ.erase j, (if r = j then 1 else
        Lagrange.basisDivisor (tau j) (tau r)) :=
    (Finset.prod_erase _ (by simp)).symm
  rw [herase]
  simp
  exact Finset.prod_congr rfl (fun r hr => by
    simp [Finset.mem_erase.mp hr |>.1])

/-! Coefficient sets of Collocation.setupFG (collocation.cpp lines 104 to
141): the continuity vector D, the differentiation matrix C and the
quadrature weights B, exactly as computed in the loop over the nodes. -/

/-- Continuity coefficients: for the radau scheme D j is the indicator of
the last node, otherwise D j is the Lagrange basis polynomial at node j
evaluated at 1 (collocation.cpp lines 125 to 129). -/
def collocationD (d : ℕ) (scheme : String) (tau : Fin (d + 1) → K) :
    Fin (d + 1) → K :=
  fun j => if scheme = "radau" then (if (j : ℕ) = d then 1 else 0)
    else peval (lagrangePoly d tau j) 1

/-- Differentiation matrix: C j r is the derivative of the Lagrange basis
polynomial at node j, evaluated at node r (collocation.cpp lines 133 to
136). -/
def collocationC (d : ℕ) (tau : Fin (d + 1) → K) :
    Fin (d + 1) → Fin (d + 1) → K :=
  fun j r => peval (pderiv (lagrangePoly d tau j)) (tau r)

/-- Quadrature weights: B j is the antiderivative of the Lagrange basis
polynomial at node j, evaluated at 1 (collocation.cpp lines 139 to 140). -/
def collocationB (d : ℕ) (tau : Fin (d + 1) → K) : Fin (d + 1) → K :=
  fun j => peval (pantider (lagrangePoly d tau j)) 1

/-! Auxiliary facts needed for the coefficient-sum invariants. -/

theorem length_padd (p q : List K) :
    (padd p q).length = max p.length q.length := by
  induction p generalizing q with
  | nil => simp [padd]
  | cons a p ih =>
    cases q with
    | nil => simp [padd]
    | cons b q => simp [padd, ih, Nat.succ_max_succ]

theorem length_pmul_two (p : List K) (a b : K) :
    (pmul p [a, b]).length ≤ p.length + 1 := by
  induction p with
  | nil => simp [pmul]
  | cons c p ih =>
    simp [pmul, pscale, length_padd]
    omega

theorem length_lagrangePoly_le (d : ℕ) (tau : Fin (d + 1) → K)
    (j : Fin (d + 1)) : (lagrangePoly d tau j).length ≤ d + 2 := by
  have key : ∀ (l : List (Fin (d + 1))) (acc : List K),
      (l.foldl
        (fun p r => if r = j then p else pmul p (pdivC [-(tau r), 1] (tau j - tau r)))
        acc).length ≤ acc.length + l.length := by
    intro l
    induction l with
    | nil => intro acc; simp
    | cons r l ih =>
      intro acc
      refine le_trans (ih _) ?_
      by_cases hr : r = j
      · simp [hr]
      · have : (pmul acc (pdivC [-(tau r), 1] (tau j - tau r))).length ≤
            acc.length + 1 := length_pmul_two acc _ _
        simp [hr, pdivC] at this ⊢
        omega
  unfold lagrangePoly
  have h := key (List.finRange (d + 1)) [1]
  simp only [List.length_finRange, List.length_cons, List.length_nil] at h
  omega

theorem peval_pantiderAux_one (p : List K) (m : ℕ) :
    peval (pantiderAux m p) 1 =
      ∑ n in Finset.range p.length, p.getD n 0 / ((m + n + 1 : ℕ) : K) := by
  induction p generalizing m with
  | nil => simp [pantiderAux, peval]
  | cons c p ih =>
    show c / ((m : K) + 1) + 1 * peval (pantiderAux (m + 1) p) 1 = _
    rw [one_mul, ih]
    rw [List.length_cons, Finset.sum_range_succ']
    have h0 : (c :: p).getD 0 0 / ((m + 0 + 1 : ℕ) : K) = c / ((m : K) + 1) := by
      simp
    have hs : ∀ n, (c :: p).getD (n + 1) 0 / ((m + (n + 1) + 1 : ℕ) : K) =
        p.getD n 0 / ((m + 1 + n + 1 : ℕ) : K) := by
      intro n
      have : m + (n + 1) + 1 = m + 1 + n + 1 := by omega
      simp [this]
    rw [h0]
    rw [Finset.sum_congr rfl (fun n _ => hs n)]
    ring

theorem collocationB_eq_sum_range (d : ℕ) (tau : Fin (d + 1) → K)
    (j : Fin (d + 1)) :
    collocationB d tau j =
      ∑ n in Finset.range (d + 2),
        (lagrangePoly d tau j).getD n 0 / ((n + 1 : ℕ) : K) := by
  have h1 : collocationB d tau j = peval (pantiderAux 0 (lagrangePoly d tau j)) 1 := by
    show (0 : K) + 1 * peval (pantiderAux 0 (lagrangePoly d tau j)) 1 = _
    ring
  rw [h1, peval_pantiderAux_one]
  have hext : ∑ n in Finset.range (lagrangePoly d tau j).length,
      (lagrangePoly d tau j).getD n 0 / ((0 + n + 1 : ℕ) : K) =
      ∑ n in Finset.range (d + 2),
        (lagrangePoly d tau j).getD n 0 / ((0 + n + 1 : ℕ) : K) := by
    refine Finset.sum_subset
      (Finset.range_subset.mpr (length_lagrangePoly_le d tau j)) ?_
    intro n _ hn
    have hlen : (lagrangePoly d tau j).length ≤ n := by
      simp only [Finset.mem_range, not_lt] at hn
      exact hn
    rw [List.getD_eq_default _ _ hlen, zero_div]
  rw [hext]
  exact Finset.sum_congr rfl (fun n _ => by rw [Nat.zero_add])

/-- Sum of all Lagrange basis polynomials over an injective node grid, as
interpreted coefficient lists: the constant polynomial 1. -/
theorem sum_toP_lagrangePoly (d : ℕ) (tau : Fin (d + 1) → K)
    (ht : Function.Injective tau) :
    ∑ j : Fin (d + 1), toP (lagrangePoly d tau j) = 1 := by
  have := Lagrange.sum_basis (Set.injOn_of_injective ht) (Finset.univ_nonempty
    (α := Fin (d + 1)))
  calc ∑ j : Fin (d + 1), toP (lagrangePoly d tau j)
      = ∑ j : Fin (d + 1), Lagrange.basis Finset.univ tau j :=
        Finset.sum_congr rfl (fun j _ => toP_lagrangePoly d tau j)
    _ = 1 := this

theorem sum_collocationD (d : ℕ) (scheme : String) (tau : Fin (d + 1) → K)
    (hs : scheme = "radau" ∨ scheme = "legendre")
    (ht : Function.Injective tau) :
    ∑ j : Fin (d + 1), collocationD d scheme tau j = 1 := by
  rcases hs with hs | hs
  · subst hs
    have hval : ∀ j : Fin (d + 1), ((j : ℕ) = d) = (j = Fin.last d) := by
      intro j
      simp [Fin.ext_iff]
    simp only [collocationD, eq_self_iff_true, if_true, hval]
    rw [Finset.sum_ite_eq' Finset.univ (Fin.last d) (fun _ => (1 : K))]
    simp
  · subst hs
    have hsch : ¬ ("legendre" = "radau") := by decide
    simp only [collocationD, if_neg hsch]
    have : ∀ j : Fin (d + 1), peval (lagrangePoly d tau j) 1 =
        (toP (lagrangePoly d tau j)).eval 1 := fun j => (eval_toP _ _).symm
    rw [Finset.sum_congr rfl (fun j _ => this j), ← Polynomial.eval_finset_sum,
      sum_toP_lagrangePoly d tau ht]
    simp

theorem sum_collocationB (d : ℕ) (tau : Fin (d + 1) → K)
    (ht : Function.Injective tau) :
    ∑ j : Fin (d + 1), collocationB d tau j = 1 := by
  have hcoeff : ∀ n : ℕ, (∑ j : Fin (d + 1), (lagrangePoly d tau j).getD n 0) =
      if n = 0 then (1 : K) else 0 := by
    intro n
    have : ∀ j : Fin (d + 1), (lagrangePoly d tau j).getD n 0 =
        (toP (lagrangePoly d tau j)).coeff n := fun j => (toP_coeff _ _).symm
    rw [Finset.sum_congr rfl (fun j _ => this j), ← Polynomial.finset_sum_coeff,
      sum_toP_lagrangePoly d tau ht, Polynomial.coeff_one]
  calc ∑ j : Fin (d + 1), collocationB d tau j
      = ∑ j : Fin (d + 1), ∑ n in Finset.range (d + 2),
          (lagrangePoly d tau j).getD n 0 / ((n + 1 : ℕ) : K) :=
        Finset.sum_congr rfl (fun j _ => collocationB_eq_sum_range d tau j)
    _ = ∑ n in Finset.range (d + 2),
          (∑ j : Fin (d + 1), (lagrangePoly d tau j).getD n 0) / ((n + 1 : ℕ) : K) := by
        rw [Finset.sum_comm]
        exact Finset.sum_congr rfl (fun n _ => (Finset.sum_div _ _ _).symm)
    _ = ∑ n in Finset.range (d + 2),
          (if n = 0 then (1 : K) else 0) / ((n + 1 : ℕ) : K) :=
        Finset.sum_congr rfl (fun n _ => by rw [hcoeff n])
    _ = 1 := by
        rw [Finset.sum_eq_single_of_mem 0 (by simp)]
        · simp
        · intro n _ hn
          simp [hn]

/-! Step relations assembled by Collocation.setupFG (collocation.cpp lines
143 to 320).  The symbolic MX expressions are embedded as pure functions of
the step inputs; state-space vectors live in arbitrary modules over the
scalar field.  The stacked interior unknown v, split by v_offset into
alternating state and algebraic blocks (lines 151 to 166), is embedded in
already-split form as one (x, z) pair per interior node. -/

/-- Outputs of one evaluation of the DAE callable f with named outputs
ode, alg, quad. -/
structure DaeOut (X Z Q : Type) where
  ode : X
  alg : Z
  quad : Q

/-- Named inputs of the forward step relation fstep (collocation.cpp lines
216 to 222): t0, h, x0, p, u and the stacked interior unknowns v. -/
structure FStepIn (K X Z P U : Type) (d : ℕ) where
  t0 : K
  h : K
  x0 : X
  p : P
  u : U
  v : Fin d → X × Z

/-- Named outputs of the forward step relation (collocation.cpp lines 223
to 226): the end state xf, the stacked residual vf that the external
root-solver must drive to zero, and the quadrature state qf.  The residual
is kept as the ordered list of per-node blocks, each block holding the
collocation equation and the algebraic conditions pushed for that node. -/
structure FStepOut (X Z Q : Type) where
  xf : X
  vf : List (X × Z)
  qf : Q

/-- Outputs of one evaluation of the backward DAE callable g with named
outputs rode, ralg, rquad, uquad. -/
structure BDaeOut (RX RZ RQ UQ : Type) where
  rode : RX
  ralg : RZ
  rquad : RQ
  uquad : UQ

/-- Named inputs of the backward step relation bstep (collocation.cpp lines
303 to 312). -/
structure BStepIn (K X Z P U RX RZ RP : Type) (d : ℕ) where
  t0 : K
  h : K
  x0 : X
  p : P
  u : U
  v : Fin d → X × Z
  rx0 : RX
  rp : RP
  rv : Fin d → RX × RZ

/-- Named outputs of the backward step relation (collocation.cpp lines 313
to 317): rxf, the stacked residual rvf, and the two separate quadrature
accumulators rqf and uqf. -/
structure BStepOut (RX RZ RQ UQ : Type) where
  rxf : RX
  rvf : List (RX × RZ)
  rqf : RQ
  uqf : UQ

variable {X Z P U Q RX RZ RP RQ UQ : Type}

/-- The forward step relation, assembled exactly as the loop of setupFG
(collocation.cpp lines 178 to 227): for each interior node j (index j+1 on
the grid) the DAE is evaluated at (t0 + h tau, x, z, p, u); the collocation
equation h ode - xp and the algebraic conditions are pushed; xf and qf are
accumulated.  The accumulation loops are kept as left folds over the node
list. -/
def fstep [AddCommGroup X] [Module K X] [AddCommMonoid Q] [Module K Q]
    (d : ℕ) (Cm : Fin (d + 1) → Fin (d + 1) → K) (D B : Fin (d + 1) → K)
    (tau : Fin (d + 1) → K) (f : K → X → Z → P → U → DaeOut X Z Q)
    (inp : FStepIn K X Z P U d) : FStepOut X Z Q :=
  let tt : Fin (d + 1) → K := fun r => inp.t0 + inp.h * tau r
  let fres : Fin d → DaeOut X Z Q :=
    fun j => f (tt j.succ) (inp.v j).1 (inp.v j).2 inp.p inp.u
  let xp : Fin d → X := fun j =>
    (List.finRange d).foldl (fun a r => a + Cm r.succ j.succ • (inp.v r).1)
      (Cm 0 j.succ • inp.x0)
  { xf := (List.finRange d).foldl (fun a j => a + D j.succ • (inp.v j).1)
      (D 0 • inp.x0)
    vf := (List.finRange d).map
      (fun j => (inp.h • (fres j).ode - xp j, (fres j).alg))
    qf := (List.finRange d).foldl
      (fun a j => a + (B j.succ * inp.h) • (fres j).quad) 0 }

/-- The backward step relation, assembled exactly as the loop of setupFG
(collocation.cpp lines 230 to 319), present only when the backward DAE
callable g is supplied (line 233): for each interior node j the backward
DAE is evaluated at (t0 + h tau, x, z, p, u, rx, rz, rp); the collocation
equation h B rode - rxp and the algebraic conditions are pushed; rxf, rqf
and uqf are accumulated. -/
def bstep [AddCommGroup RX] [Module K RX] [AddCommMonoid RQ] [Module K RQ]
    [AddCommMonoid UQ] [Module K UQ]
    (d : ℕ) (Cm : Fin (d + 1) → Fin (d + 1) → K) (D B : Fin (d + 1) → K)
    (tau : Fin (d + 1) → K)
    (g : K → X → Z → P → U → RX → RZ → RP → BDaeOut RX RZ RQ UQ)
    (inp : BStepIn K X Z P U RX RZ RP d) : BStepOut RX RZ RQ UQ :=
  let tt : Fin (d + 1) → K := fun r => inp.t0 + inp.h * tau r
  let gres : Fin d → BDaeOut RX RZ RQ UQ :=
    fun j => g (tt j.succ) (inp.v j).1 (inp.v j).2 inp.p inp.u
      (inp.rv j).1 (inp.rv j).2 inp.rp
  let rxp : Fin d → RX := fun j =>
    (List.finRange d).foldl
      (fun a r => a + (B r.succ * Cm j.succ r.succ) • (inp.rv r).1)
      ((-D j.succ) • inp.rx0)
  { rxf := (List.finRange d).foldl
      (fun a j => a + (-(B j.succ * Cm 0 j.succ)) • (inp.rv j).1)
      (D 0 • inp.rx0)
    rvf := (List.finRange d).map
      (fun j => ((inp.h * B j.succ) • (gres j).rode - rxp j, (gres j).ralg))
    rqf := (List.finRange d).foldl
      (fun a j => a + (inp.h * B j.succ) • (gres j).rquad) 0
    uqf := (List.finRange d).foldl
      (fun a j => a + (inp.h * B j.succ) • (gres j).uquad) 0 }

/-- A left fold accumulating additive contributions equals the starting
value plus the sum of the contributions. -/
theorem foldl_add_eq_sum {α M : Type} [AddCommMonoid M] (g : α → M) :
    ∀ (l : List α) (a : M),
      l.foldl (fun acc x => acc + g x) a = a + (l.map g).sum := by
  intro l
  induction l with
  | nil => intro a; simp
  | cons x l ih =>
    intro a
    simp only [List.foldl_cons, List.map_cons, List.sum_cons, ih, add_assoc]

/-- Specialisation of the fold lemma to the node list. -/
theorem foldl_add_finRange {M : Type} [AddCommMonoid M] {n : ℕ}
    (g : Fin n → M) (a : M) :
    (List.finRange n).foldl (fun acc x => acc + g x) a = a + ∑ j : Fin n, g j := by
  rw [foldl_add_eq_sum, ← Fin.sum_univ_def]

/-! Claim theorems about the step relations and the coefficients. -/

/-- C1: for every degree d (in particular every d at least 1), when the
backward DAE callable is supplied, the residual block of the backward step
relation at interior node j is h B[j] rode_j - rxp_j, where
rxp_j = -D[j] rx0 + sum over r of (B[r] C[j][r]) rx_r, with the weight on
rx_r being the product B[r] C[j][r], stacked with ralg_j. -/
theorem bstep_residual_spec [AddCommGroup RX] [Module K RX]
    [AddCommMonoid RQ] [Module K RQ] [AddCommMonoid UQ] [Module K UQ]
    (d : ℕ) (Cm : Fin (d + 1) → Fin (d + 1) → K) (D B : Fin (d + 1) → K)
    (tau : Fin (d + 1) → K)
    (g : K → X → Z → P → U → RX → RZ → RP → BDaeOut RX RZ RQ UQ)
    (inp : BStepIn K X Z P U RX RZ RP d) :
    (bstep d Cm D B tau g inp).rvf = (List.finRange d).map (fun j =>
      ((inp.h * B j.succ) •
          (g (inp.t0 + inp.h * tau j.succ) (inp.v j).1 (inp.v j).2 inp.p
            inp.u (inp.rv j).1 (inp.rv j).2 inp.rp).rode -
        ((-D j.succ) • inp.rx0 +
          ∑ r : Fin d, (B r.succ * Cm j.succ r.succ) • (inp.rv r).1),
       (g (inp.t0 + inp.h * tau j.succ) (inp.v j).1 (inp.v j).2 inp.p
          inp.u (inp.rv j).1 (inp.rv j).2 inp.rp).ralg)) := by
  simp only [bstep, foldl_add_finRange]

/-- C2: for every degree d (in particular every d at least 1), the residual
block of the forward step relation at interior node j is h ode_j minus
(C[0][j] x0 + sum over r of C[r][j] x_r), where the DAE callable is
evaluated at (t0 + h tau_root[j], x_j, z_j, p, u), stacked with alg_j; the
assembler only emits this residual (as the vf output) and never solves
it. -/
theorem fstep_residual_spec [AddCommGroup X] [Module K X]
    [AddCommMonoid Q] [Module K Q]
    (d : ℕ) (Cm : Fin (d + 1) → Fin (d + 1) → K) (D B : Fin (d + 1) → K)
    (tau : Fin (d + 1) → K) (f : K → X → Z → P → U → DaeOut X Z Q)
    (inp : FStepIn K X Z P U d) :
    (fstep d Cm D B tau f inp).vf = (List.finRange d).map (fun j =>
      (inp.h •
          (f (inp.t0 + inp.h * tau j.succ) (inp.v j).1 (inp.v j).2 inp.p
            inp.u).ode -
        (Cm 0 j.succ • inp.x0 + ∑ r : Fin d, Cm r.succ j.succ • (inp.v r).1),
       (f (inp.t0 + inp.h * tau j.succ) (inp.v j).1 (inp.v j).2 inp.p
          inp.u).alg)) := by
  simp only [fstep, foldl_add_finRange]

/-- C3: for every degree d (in particular every d at least 1), the forward
step relation, whose published inputs are the fields of FStepIn and whose
published outputs are the fields of FStepOut, has end state
xf = D[0] x0 + sum over j of D[j] x_j and quadrature
qf = sum over j of (B[j] h) quad_j. -/
theorem fstep_outputs_spec [AddCommGroup X] [Module K X]
    [AddCommMonoid Q] [Module K Q]
    (d : ℕ) (Cm : Fin (d + 1) → Fin (d + 1) → K) (D B : Fin (d + 1) → K)
    (tau : Fin (d + 1) → K) (f : K → X → Z → P → U → DaeOut X Z Q)
    (inp : FStepIn K X Z P U d) :
    (fstep d Cm D B tau f inp).xf =
        D 0 • inp.x0 + ∑ j : Fin d, D j.succ • (inp.v j).1 ∧
    (fstep d Cm D B tau f inp).qf =
        ∑ j : Fin d, (B j.succ * inp.h) •
          (f (inp.t0 + inp.h * tau j.succ) (inp.v j).1 (inp.v j).2 inp.p
            inp.u).quad := by
  constructor
  · simp only [fstep, foldl_add_finRange]
  · simp only [fstep, foldl_add_finRange, zero_add]

/-- C4: for every degree d (in particular every d at least 1), when the
backward DAE callable is supplied, the backward step relation outputs
rxf = D[0] rx0 - sum over j of B[j] C[0][j] rx_j,
rqf = sum over j of h B[j] rquad_j and uqf = sum over j of h B[j] uquad_j,
with rqf and uqf accumulated as the two separate outputs rqf and uqf. -/
theorem bstep_outputs_spec [AddCommGroup RX] [Module K RX]
    [AddCommMonoid RQ] [Module K RQ] [AddCommMonoid UQ] [Module K UQ]
    (d : ℕ) (Cm : Fin (d + 1) → Fin (d + 1) → K) (D B : Fin (d + 1) → K)
    (tau : Fin (d + 1) → K)
    (g : K → X → Z → P → U → RX → RZ → RP → BDaeOut RX RZ RQ UQ)
    (inp : BStepIn K X Z P U RX RZ RP d) :
    (bstep d Cm D B tau g inp).rxf =
        D 0 • inp.rx0 -
          ∑ j : Fin d, (B j.succ * Cm 0 j.succ) • (inp.rv j).1 ∧
    (bstep d Cm D B tau g inp).rqf =
        ∑ j : Fin d, (inp.h * B j.succ) •
          (g (inp.t0 + inp.h * tau j.succ) (inp.v j).1 (inp.v j).2 inp.p
            inp.u (inp.rv j).1 (inp.rv j).2 inp.rp).rquad ∧
    (bstep d Cm D B tau g inp).uqf =
        ∑ j : Fin d, (inp.h * B j.succ) •
          (g (inp.t0 + inp.h * tau j.succ) (inp.v j).1 (inp.v j).2 inp.p
            inp.u (inp.rv j).1 (inp.rv j).2 inp.rp).uquad := by
  refine ⟨?_, ?_, ?_⟩
  · simp only [bstep, foldl_add_finRange, neg_smul, sub_eq_add_neg,
      Finset.sum_neg_distrib]
  · simp only [bstep, foldl_add_finRange, zero_add]
  · simp only [bstep, foldl_add_finRange, zero_add]

/-- C5: the continuity vector is the indicator of the last node for the
radau scheme and the value at 1 of the Lagrange basis polynomial at node j
for the legendre scheme (where Lagrange.basis is the independent
mathematical Lagrange basis over the node grid). -/
theorem collocationD_spec (d : ℕ) (tau : Fin (d + 1) → K) (j : Fin (d + 1)) :
    collocationD d "radau" tau j = (if (j : ℕ) = d then 1 else 0) ∧
    collocationD d "legendre" tau j =
      (Lagrange.basis Finset.univ tau j).eval 1 := by
  constructor
  · simp [collocationD]
  · rw [← toP_lagrangePoly, eval_toP]
    simp [collocationD]

/-- C6: for every degree d at least 1 and both schemes, over an injective
node grid (as delivered by the spec-modelled collocation_points routine)
the continuity coefficients and the quadrature weights each sum to 1
exactly, hence in particular to within 1e-12. -/
theorem collocation_sums_spec {K : Type} [LinearOrderedField K] (d : ℕ)
    (scheme : String) (tau : Fin (d + 1) → K)
    (hs : scheme = "radau" ∨ scheme = "legendre")
    (ht : Function.Injective tau) :
    (∑ j : Fin (d + 1), collocationD d scheme tau j) = 1 ∧
    (∑ j : Fin (d + 1), collocationB d tau j) = 1 ∧
    |(∑ j : Fin (d + 1), collocationD d scheme tau j) - 1| ≤ 1 / 10 ^ 12 ∧
    |(∑ j : Fin (d + 1), collocationB d tau j) - 1| ≤ 1 / 10 ^ 12 := by
  have hD := sum_collocationD d scheme tau hs ht
  have hB := sum_collocationB d tau ht
  refine ⟨hD, hB, ?_, ?_⟩
  · rw [hD]; simp
  · rw [hB]; simp

/-- Concrete node grid for the coefficient-sum witness: the degree-1
legendre grid 0, 1/2. -/
def tauW : Fin 2 → ℚ := ![0, 1/2]

/-- C6 witness: the coefficient sums at degree 1 with the legendre grid. -/
theorem collocation_sums_spec_witness :
    (∑ j : Fin 2, collocationD 1 "legendre" tauW j) = 1 ∧
    (∑ j : Fin 2, collocationB 1 tauW j) = 1 ∧
    |(∑ j : Fin 2, collocationD 1 "legendre" tauW j) - 1| ≤ 1 / 10 ^ 12 ∧
    |(∑ j : Fin 2, collocationB 1 tauW j) - 1| ≤ 1 / 10 ^ 12 :=
  collocation_sums_spec 1 "legendre" tauW (Or.inr rfl)
    (by intro a b h; fin_cases a <;> fin_cases b <;> simp_all [tauW])

/-! Configuration, validation and coefficient setup (claim C7). -/

/-- Errors of the collocation core (spec section 7). -/
inductive CollocationError : Type where
  | InvalidDegree : CollocationError
  | InvalidScheme : CollocationError
  | SerializationVersionMismatch : CollocationError
  deriving DecidableEq

/-- One entry of the option dictionary consumed by Collocation.init; keys
other than interpolation_order and collocation_scheme are handled by the
base class. -/
inductive CollOpt : Type where
  | interpolationOrder : Int → CollOpt
  | collocationScheme : String → CollOpt
  | other : CollOpt

/-- Collocation.init (collocation.cpp lines 68 to 84): start from the
defaults deg = 3 and scheme radau, then fold over the option
dictionary. -/
def collInit (opts : List CollOpt) : Int × String :=
  opts.foldl (fun c op =>
    match op with
    | .interpolationOrder n => (n, c.2)
    | .collocationScheme s => (c.1, s)
    | .other => c) (3, "radau")

/-- Modelled from the spec: the eager configuration-time validation.  The
degree and scheme checks are performed by the collocation_points routine
(integration_tools), invoked by setupFG (collocation.cpp line 100) before
any coefficient is derived; that routine is not among the sources under
src.  A degree below 1 fails with InvalidDegree, a scheme other than radau
or legendre fails with InvalidScheme. -/
def validateConfig (deg : Int) (scheme : String) :
    Except CollocationError Unit :=
  if deg < 1 then .error .InvalidDegree
  else if scheme = "radau" ∨ scheme = "legendre" then .ok ()
  else .error .InvalidScheme

/-- Coefficient sets derived for a validated configuration. -/
structure SchemeCoefficients (K : Type) where
  deg : ℕ
  Dv : Fin (deg + 1) → K
  Cm : Fin (deg + 1) → Fin (deg + 1) → K
  Bv : Fin (deg + 1) → K

/-- Coefficient setup at configuration time: validate, then derive the
coefficient sets over the node grid delivered by the (spec-modelled) node
supplier.  On a validation failure the derivation is never reached. -/
def setupFGCoefficients (deg : Int) (scheme : String)
    (points : (n : ℕ) → Fin (n + 1) → K) :
    Except CollocationError (SchemeCoefficients K) :=
  match validateConfig deg scheme with
  | .error e => .error e
  | .ok _ =>
    let n := deg.toNat
    .ok ⟨n, collocationD n scheme (points n), collocationC n (points n),
      collocationB n (points n)⟩

/-- C7: a configured degree below 1 fails with InvalidDegree and a scheme
name outside the two supported ones fails with InvalidScheme, in both
cases for every possible node supplier, so the rejection happens at
configuration time before any coefficient derivation. -/
theorem configure_rejects_spec (deg : Int) (scheme : String) :
    (deg < 1 → ∀ points : (n : ℕ) → Fin (n + 1) → ℚ,
      setupFGCoefficients deg scheme points = .error .InvalidDegree) ∧
    (1 ≤ deg → scheme ≠ "radau" → scheme ≠ "legendre" →
      ∀ points : (n : ℕ) → Fin (n + 1) → ℚ,
      setupFGCoefficients deg scheme points = .error .InvalidScheme) := by
  constructor
  · intro hdeg points
    simp [setupFGCoefficients, validateConfig, hdeg]
  · intro hdeg h1 h2 points
    have hnot : ¬ deg < 1 := by omega
    simp [setupFGCoefficients, validateConfig, hnot, h1, h2]

/-- C7 witness: degree 0 is rejected as InvalidDegree, the scheme name
gauss is rejected as InvalidScheme. -/
theorem configure_rejects_witness :
    setupFGCoefficients 0 "radau" (fun _ _ => (0 : ℚ)) =
      .error .InvalidDegree ∧
    setupFGCoefficients 3 "gauss" (fun _ _ => (0 : ℚ)) =
      .error .InvalidScheme :=
  ⟨(configure_rejects_spec 0 "radau").1 (by decide) _,
   (configure_rejects_spec 3 "gauss").2 (by decide) (by decide) (by decide) _⟩

/-! Serialization (claim C8). -/

/-- The collocation state that is persisted.  The fields deg, scheme, f
and g are packed by Collocation.serialize_body (collocation.cpp lines 365
to 372); g is null when no backward DAE was supplied, which doubles as the
has-backward flag.  Modelled from the spec: the base-class part of the
record (ImplicitFixedStepIntegrator::serialize_body, not among the sources
under src) carries the assembled step relations with the coefficients
baked in; it is represented by the opaque payload steprel. -/
structure CollocationState (F G S : Type) where
  deg : ℕ
  scheme : String
  f : F
  g : Option G
  steprel : S

/-- A persisted record: the version tag written by s.version followed by
the packed members. -/
structure CollocationRecord (F G S : Type) where
  version : ℕ
  deg : ℕ
  scheme : String
  f : F
  g : Option G
  steprel : S

/-- Collocation.serialize_body: pack version tag 1 and the members. -/
def serializeBody {F G S : Type} (c : CollocationState F G S) :
    CollocationRecord F G S :=
  ⟨1, c.deg, c.scheme, c.f, c.g, c.steprel⟩

/-- The deserializing constructor (collocation.cpp lines 357 to 363):
check the version tag, then unpack the members; nothing is recomputed.
Modelled from the spec: the version gate of DeserializingStream (not among
the sources under src) aborts the load of an unsupported tag with
SerializationVersionMismatch. -/
def deserializeColl {F G S : Type} (r : CollocationRecord F G S) :
    Except CollocationError (CollocationState F G S) :=
  if r.version = 1 then
    .ok ⟨r.deg, r.scheme, r.f, r.g, r.steprel⟩
  else .error .SerializationVersionMismatch

/-- C8: the persisted record consists of the version tag and the packed
members; restoring the record of a state yields that state back unchanged
(in particular the step-relation payload is not recomputed), and a record
with an unsupported version tag fails with SerializationVersionMismatch. -/
theorem serialization_spec {F G S : Type} (c : CollocationState F G S)
    (r : CollocationRecord F G S) :
    deserializeColl (serializeBody c) = .ok c ∧
    (r.version ≠ 1 →
      deserializeColl r = .error .SerializationVersionMismatch) := by
  constructor
  · rfl
  · intro hv
    simp [deserializeColl, hv]

/-- C8 witness: a concrete round trip and a concrete version-2 record that
is refused. -/
theorem serialization_spec_witness :
    deserializeColl (serializeBody
      (⟨3, "radau", 7, some 9, 11⟩ : CollocationState ℕ ℕ ℕ)) =
      .ok ⟨3, "radau", 7, some 9, 11⟩ ∧
    deserializeColl (⟨2, 3, "radau", 7, some 9, 11⟩ : CollocationRecord ℕ ℕ ℕ) =
      .error .SerializationVersionMismatch :=
  ⟨(serialization_spec ⟨3, "radau", 7, some 9, 11⟩
      (⟨2, 3, "radau", 7, some 9, 11⟩ : CollocationRecord ℕ ℕ ℕ)).1,
   (serialization_spec (⟨3, "radau", 7, some 9, 11⟩ : CollocationState ℕ ℕ ℕ)
      ⟨2, 3, "radau", 7, some 9, 11⟩).2 (by decide)⟩

/-! State-buffer initialisation (claim C9) and the algebraic state output
(claim C10). -/

/-- Collocation.reset (collocation.cpp lines 323 to 338): the interior
unknown buffer v is filled by the loop over the deg node blocks, copying
the state entries and then the algebraic entries into consecutive
positions. -/
def resetV (deg : ℕ) (x z : List K) : List K :=
  (List.range deg).foldl (fun v _ => v ++ (x ++ z)) []

/-- Collocation.resetB (collocation.cpp lines 340 to 355): the backward
buffer rv is filled the same way from rx and rz. -/
def resetRV (deg : ℕ) (rx rz : List K) : List K :=
  (List.range deg).foldl (fun rv _ => rv ++ (rx ++ rz)) []

/-- Collocation.algebraic_state_init (collocation.cpp lines 86 to 89):
vertcat(x0, z0) replicated deg times. -/
def algebraicStateInit (deg : ℕ) (x z : List K) : List K :=
  (List.replicate deg (x ++ z)).flatten

/-- Collocation.algebraic_state_output (collocation.cpp lines 90 to 92):
the slice of the stacked vector Z from position Z.size1() - nz to the
end. -/
def algebraicStateOutput (nz : ℕ) (Z : List K) : List K :=
  Z.drop (Z.length - nz)

theorem foldl_append_eq_flatten_replicate {α β : Type} (b : List β) :
    ∀ (l : List α) (a : List β),
      l.foldl (fun v _ => v ++ b) a = a ++ (List.replicate l.length b).flatten := by
  intro l
  induction l with
  | nil => intro a; simp
  | cons _ l ih =>
    intro a
    simp only [List.foldl_cons, ih, List.length_cons, List.replicate_succ,
      List.flatten_cons, List.append_assoc]

theorem flatten_replicate_block {α : Type} (b : List α) :
    ∀ (k n : ℕ), k < n →
      (((List.replicate n b).flatten.drop (k * b.length)).take b.length) = b := by
  intro k
  induction k with
  | zero =>
    intro n hn
    match n, hn with
    | n + 1, _ =>
      simp only [List.replicate_succ, List.flatten_cons, Nat.zero_mul,
        List.drop_zero]
      exact List.take_left b _
  | succ k ih =>
    intro n hn
    match n, hn with
    | n + 1, hn =>
      simp only [List.replicate_succ, List.flatten_cons]
      have hmul : (k + 1) * b.length = b.length + k * b.length := by ring
      rw [hmul, List.drop_append]
      exact ih n (by omega)

/-- C9: reset fills the buffer v so that each of the deg blocks of size
nx + nz equals concat(x0, z0) exactly, resetB analogously fills rv with
replicated concat(rx0, rz0) blocks, and the fill agrees with the initial
guess algebraic_state_init. -/
theorem reset_replicates_spec (deg nx nz nrx nrz : ℕ) (x z rx rz : List K)
    (hx : x.length = nx) (hz : z.length = nz)
    (hrx : rx.length = nrx) (hrz : rz.length = nrz)
    (k : ℕ) (hk : k < deg) :
    ((resetV deg x z).drop (k * (nx + nz))).take (nx + nz) = x ++ z ∧
    ((resetRV deg rx rz).drop (k * (nrx + nrz))).take (nrx + nrz) = rx ++ rz ∧
    resetV deg x z = algebraicStateInit deg x z := by
  have hv : resetV deg x z = (List.replicate deg (x ++ z)).flatten := by
    have h := foldl_append_eq_flatten_replicate (x ++ z) (List.range deg) []
    simpa [resetV] using h
  have hrv : resetRV deg rx rz = (List.replicate deg (rx ++ rz)).flatten := by
    have h := foldl_append_eq_flatten_replicate (rx ++ rz) (List.range deg) []
    simpa [resetRV] using h
  refine ⟨?_, ?_, ?_⟩
  · rw [hv]
    have hb : (x ++ z).length = nx + nz := by
      rw [List.length_append, hx, hz]
    rw [← hb]
    exact flatten_replicate_block (x ++ z) k deg hk
  · rw [hrv]
    have hb : (rx ++ rz).length = nrx + nrz := by
      rw [List.length_append, hrx, hrz]
    rw [← hb]
    exact flatten_replicate_block (rx ++ rz) k deg hk
  · rw [hv]; rfl

/-- C9 witness: degree 2 with a state of length 2 and an algebraic state
of length 1, checked at block 1. -/
theorem reset_replicates_witness :
    ((resetV 2 [1, 2] [3]).drop (1 * (2 + 1))).take (2 + 1) =
      ([1, 2] ++ [3] : List ℚ) ∧
    ((resetRV 2 [4] ([] : List ℚ)).drop (1 * (1 + 0))).take (1 + 0) =
      [4] ++ [] ∧
    resetV 2 [1, 2] [3] = algebraicStateInit 2 [1, 2] ([3] : List ℚ) :=
  reset_replicates_spec 2 2 1 1 0 [1, 2] [3] [4] [] rfl rfl rfl rfl 1
    (by decide)

theorem algebraicStateOutput_eq_trailing (nz : ℕ) (Z : List K) :
    algebraicStateOutput nz Z = (Z.reverse.take nz).reverse := by
  rw [algebraicStateOutput, List.take_reverse]
  simp

theorem length_flatten_blocks (nx nz : ℕ) (blocks : List (List K × List K))
    (hsz : ∀ b ∈ blocks, b.1.length = nx ∧ b.2.length = nz) :
    ((blocks.map (fun b => b.1 ++ b.2)).flatten).length =
      blocks.length * (nx + nz) := by
  induction blocks with
  | nil => simp
  | cons b bs ih =>
    have hb := hsz b (by simp)
    simp only [List.map_cons, List.flatten_cons, List.length_append,
      List.length_cons, ih (fun c hc => hsz c (by simp [hc]))]
    rw [hb.1, hb.2]
    ring

/-- C10: on a stacked interior-unknown vector made of the deg node blocks
(x_j, z_j), the algebraic state output is exactly the trailing nz entries
of the vector, namely the algebraic variables z of the last collocation
node; no other block is exposed. -/
theorem algebraic_state_output_spec (nx nz : ℕ)
    (blocks : List (List K × List K)) (hb : blocks ≠ [])
    (hsz : ∀ b ∈ blocks, b.1.length = nx ∧ b.2.length = nz) :
    algebraicStateOutput nz ((blocks.map (fun b => b.1 ++ b.2)).flatten) =
      ((((blocks.map (fun b => b.1 ++ b.2)).flatten).reverse.take nz).reverse) ∧
    algebraicStateOutput nz ((blocks.map (fun b => b.1 ++ b.2)).flatten) =
      (blocks.getLast hb).2 := by
  refine ⟨algebraicStateOutput_eq_trailing _ _, ?_⟩
  induction blocks with
  | nil => exact absurd rfl hb
  | cons b bs ih =>
    cases bs with
    | nil =>
      simp only [List.map_cons, List.map_nil, List.flatten_cons,
        List.flatten_nil, List.append_nil, List.getLast_singleton]
      rw [algebraicStateOutput, List.length_append,
        (hsz b (by simp)).2, Nat.add_sub_cancel]
      exact List.drop_left b.1 b.2
    | cons b2 bs2 =>
      have hbs : (b2 :: bs2 : List (List K × List K)) ≠ [] := by simp
      have hsz2 : ∀ c ∈ (b2 :: bs2 : List (List K × List K)),
          c.1.length = nx ∧ c.2.length = nz :=
        fun c hc => hsz c (by simp [hc])
      have hrest := length_flatten_blocks nx nz (b2 :: bs2) hsz2
      have hnz : nz ≤ (((b2 :: bs2).map (fun c => c.1 ++ c.2)).flatten).length := by
        rw [hrest]
        have : 1 ≤ (b2 :: bs2 : List (List K × List K)).length := by simp
        calc nz ≤ nx + nz := by omega
          _ ≤ (b2 :: bs2 : List (List K × List K)).length * (nx + nz) :=
            Nat.le_mul_of_pos_left _ (by simp)
      have hlen : (b.1 ++ b.2).length = nx + nz := by
        rw [List.length_append, (hsz b (by simp)).1, (hsz b (by simp)).2]
      have hsplit : ((b :: b2 :: bs2).map (fun c => c.1 ++ c.2)).flatten =
          (b.1 ++ b.2) ++ ((b2 :: bs2).map (fun c => c.1 ++ c.2)).flatten := by
        simp
      rw [hsplit, algebraicStateOutput, List.length_append]
      have harith : (b.1 ++ b.2).length +
          (((b2 :: bs2).map (fun c => c.1 ++ c.2)).flatten).length - nz =
          (b.1 ++ b.2).length +
            ((((b2 :: bs2).map (fun c => c.1 ++ c.2)).flatten).length - nz) := by
        omega
      rw [harith, List.drop_append]
      have hlast := ih hbs hsz2
      rw [algebraicStateOutput] at hlast
      rw [hlast, List.getLast_cons hbs]

/-- C10 witness: two blocks with nx = 1 and nz = 2; the output is the
algebraic part of the second (last) block. -/
theorem algebraic_state_output_witness :
    algebraicStateOutput 2
        (([(([10], [11, 12]) : List ℚ × List ℚ),
           (([20], [21, 22]) : List ℚ × List ℚ)].map
          (fun b => b.1 ++ b.2)).flatten) =
      ((([(([10], [11, 12]) : List ℚ × List ℚ),
           (([20], [21, 22]) : List ℚ × List ℚ)].map
          (fun b => b.1 ++ b.2)).flatten).reverse.take 2).reverse ∧
    algebraicStateOutput 2
        (([(([10], [11, 12]) : List ℚ × List ℚ),
           (([20], [21, 22]) : List ℚ × List ℚ)].map
          (fun b => b.1 ++ b.2)).flatten) =
      ([(([10], [11, 12]) : List ℚ × List ℚ),
        (([20], [21, 22]) : List ℚ × List ℚ)].getLast (by simp)).2 :=
  algebraic_state_output_spec 1 2
    [(([10], [11, 12]) : List ℚ × List ℚ),
     (([20], [21, 22]) : List ℚ × List ℚ)] (by simp)
    (by intro b hb; simp at hb; rcases hb with h | h <;> subst h <;> simp)

end Casadi
